import Mathlib

/-!
Shallow embedding of `scripts/dcm_to_png.py`.

The script walks an input root, and for every file whose lowercased name
ends in ".dcm" it decodes a numeric sample array, rescales it to 8 bits
with a percentile window

  lo, hi = np.percentile(px, (1, 99))
  px = np.clip((px - lo) / (hi - lo + 1e-6), 0, 1)
  img = (px * 255).astype(np.uint8)

writes the result to `<dst>/<stem>.png`, increments a counter, and finally
prints `Converted {count} DICOMs to PNG in: {dst}`.

Samples are embedded as rationals (idealising IEEE floats), arrays as a
shape together with a flat data list (numpy layout), and the batch loop as
explicit state passing where an uncaught Python exception is an `err`
result carrying the state at the moment of the abort.
-/

namespace DcmToPng

/-- A numpy ndarray: a shape and the flattened data, row-major. -/
structure NDArray (α : Type) where
  shape : List Nat
  data : List α
deriving DecidableEq, Repr

/-- Linear interpolation of a sample list at fractional position `pos`
(numpy's default "linear" interpolation): with `i = ⌊pos⌋`, the value is
`s[i] + (pos - i) * (s[i+1] - s[i])`, reading `s[i+1]` as `s[i]` when out of
range. -/
def interpAt (s : List ℚ) (pos : ℚ) : ℚ :=
  s.getD (Int.floor pos).toNat 0 +
    (pos - ((Int.floor pos).toNat : ℚ)) *
      (s.getD ((Int.floor pos).toNat + 1) (s.getD (Int.floor pos).toNat 0) -
        s.getD (Int.floor pos).toNat 0)

/-- Embeds `np.percentile(xs, q)`: sort the flattened data and interpolate at
position `q/100 * (n - 1)`. -/
def percentile (q : ℚ) (xs : List ℚ) : ℚ :=
  interpAt (List.insertionSort (· ≤ ·) xs) (q / 100 * ((xs.length : ℚ) - 1))

/-- Embeds `np.clip(x, 0, 1)`. -/
def clip01 (x : ℚ) : ℚ :=
  min (max x 0) 1

/-- The `1e-6` guard added to the window width. -/
def eps : ℚ := 1 / 1000000

/-- The per-sample transform of the script: clip the windowed ratio to
[0,1], scale by 255 and truncate to an integer (`astype(np.uint8)`); the
scaled value is always in [0,255] so truncation is `Int.floor ∘ toNat`. -/
def normPixel (lo hi v : ℚ) : ℕ :=
  (Int.floor (clip01 ((v - lo) / (hi - lo + eps)) * 255)).toNat

/-- Lines 27-29 of the script: window at the 1st/99th percentile of the
flattened data and map every sample, keeping the array's shape. -/
def dcmNormalize (a : NDArray ℚ) : NDArray ℕ :=
  ⟨a.shape, a.data.map (normPixel (percentile 1 a.data) (percentile 99 a.data))⟩

/-! ### The batch loop -/

/-- One candidate input file: its subdirectory path under the input root,
its filename, and the decode result (`none` models a file on which
`pydicom.dcmread`/`pixel_array` raises). -/
structure SrcFile where
  dir : List String
  name : String
  content : Option (NDArray ℚ)
deriving DecidableEq, Repr

/-- Embeds `fn.lower().endswith(".dcm")`. -/
def isDcm (fn : String) : Bool :=
  (String.map Char.toLower fn).endsWith ".dcm"

/-- The stem part of `os.path.splitext`: split at the last dot, except that
the run of leading dots of the name never starts an extension. -/
def splitextStem (s : String) : String :=
  let cs := s.toList
  let lead := (cs.takeWhile (fun c => c = '.')).length
  match cs.reverse.findIdx? (fun c => c = '.') with
  | none => s
  | some j =>
    let i := cs.length - 1 - j
    if lead ≤ i then String.mk (cs.take i) else s

/-- Embeds `os.path.splitext(fn)[0] + ".png"`. -/
def outName (fn : String) : String :=
  splitextStem fn ++ ".png"

/-- The mutable state of one run: the success counter, the contents of the
output directory (filename ↦ written array, at most one entry per name),
and the number of `save` calls performed so far. -/
structure RunState where
  count : ℕ
  outputs : List (String × NDArray ℕ)
  writes : ℕ
deriving DecidableEq, Repr

def initState : RunState := ⟨0, [], 0⟩

/-- Writing a file into the output directory: replaces any previous file of
the same name. -/
def writeFile (outs : List (String × NDArray ℕ)) (k : String) (v : NDArray ℕ) :
    List (String × NDArray ℕ) :=
  outs.filter (fun p => decide (p.1 ≠ k)) ++ [(k, v)]

/-- Reading the output directory. -/
def findOut : List (String × NDArray ℕ) → String → Option (NDArray ℕ)
  | [], _ => none
  | p :: ps, k => if p.1 = k then some p.2 else findOut ps k

/-- Whether `PIL.Image.fromarray` accepts an 8-bit array of this shape:
1-D and 2-D arrays map to a grayscale image, and a 3-D array needs a
trailing channel dimension of 2, 3 or 4 (LA/RGB/RGBA); any other shape —
in particular a grayscale multi-frame `(frames, rows, cols)` array —
raises `TypeError: Cannot handle this data type`. -/
def pilWriteable (shape : List ℕ) : Bool :=
  decide (shape.length ≤ 2) ||
    (decide (shape.length = 3) &&
      (decide (shape.getLastD 0 = 2) || decide (shape.getLastD 0 = 3) ||
        decide (shape.getLastD 0 = 4)))

/-- One iteration of the inner loop: skip non-`.dcm` names, abort (`none`)
when decoding raises, otherwise normalize the full array and attempt the
save — which aborts (`none`) when `Image.fromarray` cannot handle the
normalized array's shape, and otherwise writes the file and increments the
counter. -/
def processFile (st : RunState) (f : SrcFile) : Option RunState :=
  if isDcm f.name then
    match f.content with
    | none => none
    | some px =>
      if pilWriteable (dcmNormalize px).shape then
        some { count := st.count + 1,
               outputs := writeFile st.outputs (outName f.name) (dcmNormalize px),
               writes := st.writes + 1 }
      else none
  else some st

/-- Outcome of a run: `ok` is normal completion, `err` is an uncaught
exception carrying the state at the moment of the abort. -/
inductive RunResult where
  | ok : RunState → RunResult
  | err : RunState → RunResult
deriving DecidableEq, Repr

/-- The `for` loops over `os.walk`, in traversal order; an exception
propagates and stops the whole run. -/
def runBatch : List SrcFile → RunState → RunResult
  | [], st => .ok st
  | f :: fs, st =>
    match processFile st f with
    | none => .err st
    | some st2 => runBatch fs st2

/-- The input root as seen by `os.walk`. -/
inductive InputRoot where
  | missing : InputRoot
  | present : List SrcFile → InputRoot

/-- Embeds `os.walk(src)`: yields the files in traversal order; on a missing or
unreadable root the default `onerror=None` swallows the `scandir` error and
the walk yields nothing. -/
def walk : InputRoot → List SrcFile
  | .missing => []
  | .present fs => fs

def runProgram (inp : InputRoot) (_dst : String) : RunResult :=
  runBatch (walk inp) initState

/-- The final print of the script. -/
def summaryLine (n : ℕ) (dst : String) : String :=
  "Converted " ++ Nat.repr n ++ " DICOMs to PNG in: " ++ dst

/-- What the program writes to stdout: the summary line on normal
completion, nothing (a traceback on stderr) when an exception aborts it. -/
def stdoutLine (inp : InputRoot) (dst : String) : Option String :=
  match runProgram inp dst with
  | .ok st => some (summaryLine st.count dst)
  | .err _ => none

/-! ### Spec-side definitions (for the refinement claim C1)

These follow the wording of the specification, stated over an arbitrary
sorted arrangement `s` of the flattened samples, to be compared with the
script's computation above. -/

/-- Spec wording: "the interpolated q-th percentile of the flattened sample
distribution" — linear interpolation at position `q/100 * (n-1)` of the
sorted samples `s`. -/
def specPosition (q : ℚ) (s : List ℚ) : ℚ :=
  q / 100 * ((s.length : ℚ) - 1)

def specPercentile (q : ℚ) (s : List ℚ) : ℚ :=
  s.getD (Int.floor (specPosition q s)).toNat 0 +
    (specPosition q s - ((Int.floor (specPosition q s)).toNat : ℚ)) *
      (s.getD ((Int.floor (specPosition q s)).toNat + 1)
          (s.getD (Int.floor (specPosition q s)).toNat 0) -
        s.getD (Int.floor (specPosition q s)).toNat 0)

/-- Spec wording: lowBound and highBound are the interpolated 1st and 99th
percentiles; every sample `s` maps to
`clamp((s - lowBound) / (highBound - lowBound + ε), 0, 1)` with `ε = 1e-6`,
the clamped value is scaled by 255 and truncated to an integer, and the
result is the NormalizedImage, on the source's grid. -/
def specNormalizedImage (a : NDArray ℚ) (s : List ℚ) : NDArray ℕ :=
  let lowBound := specPercentile 1 s
  let highBound := specPercentile 99 s
  ⟨a.shape, a.data.map (fun v =>
    (Int.floor (min (max ((v - lowBound) / (highBound - lowBound + 1 / 1000000)) 0) 1 * 255)).toNat)⟩

/-! ### Helpers for reasoning about the batch -/

/-- The filenames existing in the output directory. -/
def keysOf (outs : List (String × NDArray ℕ)) : List String :=
  outs.map Prod.fst

/-- The array that file `f` would write under output name `k`, if any. -/
def writeOf (f : SrcFile) (k : String) : Option (NDArray ℕ) :=
  if isDcm f.name = true ∧ outName f.name = k then f.content.map dcmNormalize
  else none

/-- The write to output name `k` performed by the file processed last in
traversal order among `fs`, if any. -/
def lastWrite (fs : List SrcFile) (k : String) : Option (NDArray ℕ) :=
  match fs with
  | [] => none
  | f :: rest => (lastWrite rest k).elim (writeOf f k) some

/-! ### C2: the output array has the source's spatial dimensions -/

/-- C2: for every source sample grid, the normalized image has exactly the
source's shape (and in particular the same number of samples). -/
theorem dcmNormalize_shape_eq (a : NDArray ℚ) :
    (dcmNormalize a).shape = a.shape ∧ (dcmNormalize a).data.length = a.data.length := by
  refine ⟨rfl, ?_⟩
  simp [dcmNormalize]

/-! ### C1: the normalizer refines the spec's percentile-window formula -/

theorem insertionSort_eq_of_sorted {xs s : List ℚ} (hp : xs.Perm s)
    (hs : s.Sorted (· ≤ ·)) : List.insertionSort (· ≤ ·) xs = s :=
  List.eq_of_perm_of_sorted ((List.perm_insertionSort _ xs).trans hp)
    (List.sorted_insertionSort _ xs) hs

theorem percentile_eq_specPercentile {xs s : List ℚ} (hp : xs.Perm s)
    (hs : s.Sorted (· ≤ ·)) (q : ℚ) : percentile q xs = specPercentile q s := by
  unfold percentile specPercentile interpAt
  unfold specPosition
  rw [insertionSort_eq_of_sorted hp hs, hp.length_eq]

/-- C1: for every source grid, the script's normalization agrees with the
spec's formula: lowBound/highBound are the interpolated 1st and 99th
percentiles of the flattened sample distribution (stated over any sorted
arrangement `s` of the samples), every sample is mapped to
`clamp((v - lowBound)/(highBound - lowBound + 1e-6), 0, 1)`, scaled by 255
and truncated, on the source's grid. -/
theorem dcmNormalize_eq_spec (a : NDArray ℚ) (s : List ℚ)
    (hp : a.data.Perm s) (hs : s.Sorted (· ≤ ·)) :
    dcmNormalize a = specNormalizedImage a s := by
  unfold dcmNormalize specNormalizedImage normPixel clip01 eps
  rw [percentile_eq_specPercentile hp hs 1, percentile_eq_specPercentile hp hs 99]

/-- Witness for C1 at a concrete 2×2 grid. -/
theorem dcmNormalize_eq_spec_witness :
    dcmNormalize ⟨[2, 2], [3, 1, 4, 1]⟩ = specNormalizedImage ⟨[2, 2], [3, 1, 4, 1]⟩ [1, 1, 3, 4] :=
  dcmNormalize_eq_spec _ _ (by with_unfolding_all decide) (by with_unfolding_all decide)

/-! ### C3: constant grids -/

theorem getD_eq_of_forall_eq {l : List ℚ} {c : ℚ} (hc : ∀ x ∈ l, x = c)
    {i : ℕ} (hi : i < l.length) (d : ℚ) : l.getD i d = c := by
  rw [List.getD_eq_getElem?_getD, List.getElem?_eq_getElem hi]
  exact hc _ (List.getElem_mem hi)

theorem percentile_const {xs : List ℚ} {c : ℚ} (hne : xs ≠ [])
    (hc : ∀ x ∈ xs, x = c) {q : ℚ} (hq0 : 0 ≤ q) (hq1 : q ≤ 100) :
    percentile q xs = c := by
  have hperm := List.perm_insertionSort (· ≤ ·) xs
  have hsc : ∀ x ∈ List.insertionSort (· ≤ ·) xs, x = c := fun x hx => hc x (hperm.subset hx)
  have hlen : (List.insertionSort (· ≤ ·) xs).length = xs.length := hperm.length_eq
  have hn : 1 ≤ xs.length := List.length_pos.mpr hne
  have hn1 : (1 : ℚ) ≤ (xs.length : ℚ) := by exact_mod_cast hn
  have hposle : q / 100 * ((xs.length : ℚ) - 1) ≤ (xs.length : ℚ) - 1 := by
    have h100 : q / 100 ≤ 1 := (div_le_one (by norm_num : (0:ℚ) < 100)).mpr hq1
    calc q / 100 * ((xs.length : ℚ) - 1) ≤ 1 * ((xs.length : ℚ) - 1) :=
          mul_le_mul_of_nonneg_right h100 (by linarith)
      _ = (xs.length : ℚ) - 1 := one_mul _
  have hfl : Int.floor ((xs.length : ℚ) - 1) = (xs.length : ℤ) - 1 := by
    rw [show ((xs.length : ℚ) - 1) = (((xs.length : ℤ) - 1 : ℤ) : ℚ) by push_cast; ring,
      Int.floor_intCast]
  have hfloor_le : Int.floor (q / 100 * ((xs.length : ℚ) - 1)) ≤ (xs.length : ℤ) - 1 := by
    have h2 := Int.floor_mono hposle
    rwa [hfl] at h2
  have hi : (Int.floor (q / 100 * ((xs.length : ℚ) - 1))).toNat <
      (List.insertionSort (· ≤ ·) xs).length := by
    have h3 := Int.toNat_le_toNat hfloor_le
    rw [hlen]; omega
  unfold percentile interpAt
  rw [getD_eq_of_forall_eq hsc hi 0]
  by_cases h2 : (Int.floor (q / 100 * ((xs.length : ℚ) - 1))).toNat + 1 <
      (List.insertionSort (· ≤ ·) xs).length
  · rw [getD_eq_of_forall_eq hsc h2 c]; ring
  · rw [List.getD_eq_getElem?_getD, List.getElem?_eq_none (by omega), Option.getD_none]; ring

/-- C3: a constant-valued source grid raises no division-by-zero error
(the window's guarded denominator is nonzero) and normalizes to the
constant image 0. -/
theorem dcmNormalize_const (a : NDArray ℚ) (c : ℚ) (hne : a.data ≠ [])
    (hc : ∀ x ∈ a.data, x = c) :
    percentile 99 a.data - percentile 1 a.data + eps ≠ 0 ∧
    ∀ y ∈ (dcmNormalize a).data, y = 0 := by
  have h1 : percentile 1 a.data = c := percentile_const hne hc (by norm_num) (by norm_num)
  have h99 : percentile 99 a.data = c := percentile_const hne hc (by norm_num) (by norm_num)
  constructor
  · rw [h1, h99]; unfold eps; norm_num
  · intro y hy
    unfold dcmNormalize at hy
    rcases List.mem_map.mp hy with ⟨v, hv, rfl⟩
    rw [hc v hv, h1, h99]
    unfold normPixel clip01 eps
    norm_num

/-- Witness for C3 at the constant 2-sample grid of value 7. -/
theorem dcmNormalize_const_witness :
    percentile 99 (NDArray.data ⟨[2], [7, 7]⟩) - percentile 1 (NDArray.data ⟨[2], [7, 7]⟩) + eps ≠ 0 ∧
    ∀ y ∈ (dcmNormalize ⟨[2], [7, 7]⟩).data, y = 0 :=
  dcmNormalize_const ⟨[2], [7, 7]⟩ 7 (by decide) (by decide)

/-! ### C4: monotonicity inside the window -/

/-- C4: on a grid with at least two distinct samples, if `y < x` and
neither is clipped by the percentile window, the normalized value of `x` is
at least the normalized value of `y`. -/
theorem normPixel_mono (a : NDArray ℚ) (x y u v : ℚ)
    (hu : u ∈ a.data) (hv : v ∈ a.data) (huv : u ≠ v)
    (hx : x ∈ a.data) (hy : y ∈ a.data) (hlt : y < x)
    (hylo : percentile 1 a.data ≤ y) (hxhi : x ≤ percentile 99 a.data) :
    normPixel (percentile 1 a.data) (percentile 99 a.data) y ≤
      normPixel (percentile 1 a.data) (percentile 99 a.data) x := by
  set lo := percentile 1 a.data with hlo
  set hi := percentile 99 a.data with hhi
  have heps : (0 : ℚ) < eps := by unfold eps; norm_num
  have hD : 0 < hi - lo + eps := by linarith
  unfold normPixel
  apply Int.toNat_le_toNat
  apply Int.floor_mono
  apply mul_le_mul_of_nonneg_right _ (by norm_num : (0:ℚ) ≤ 255)
  unfold clip01
  have harg : (y - lo) / (hi - lo + eps) ≤ (x - lo) / (hi - lo + eps) :=
    (div_le_div_iff_of_pos_right hD).mpr (by linarith)
  exact min_le_min (max_le_max harg le_rfl) le_rfl

/-- Witness for C4 on the grid 0,…,10 (window [0.1, 9.9]) at samples 1 < 2. -/
theorem normPixel_mono_witness :
    normPixel (percentile 1 (NDArray.data ⟨[11], [0, 1, 2, 3, 4, 5, 6, 7, 8, 9, 10]⟩))
        (percentile 99 (NDArray.data ⟨[11], [0, 1, 2, 3, 4, 5, 6, 7, 8, 9, 10]⟩)) 1 ≤
      normPixel (percentile 1 (NDArray.data ⟨[11], [0, 1, 2, 3, 4, 5, 6, 7, 8, 9, 10]⟩))
        (percentile 99 (NDArray.data ⟨[11], [0, 1, 2, 3, 4, 5, 6, 7, 8, 9, 10]⟩)) 2 :=
  normPixel_mono ⟨[11], [0, 1, 2, 3, 4, 5, 6, 7, 8, 9, 10]⟩ 2 1 0 1
    (by decide) (by decide) (by decide) (by decide) (by decide)
    (by norm_num) (by with_unfolding_all decide) (by with_unfolding_all decide)

/-! ### Output-directory lemmas -/

theorem findOut_writeFile_self (outs : List (String × NDArray ℕ)) (k : String) (v : NDArray ℕ) :
    findOut (writeFile outs k v) k = some v := by
  induction outs with
  | nil => simp [writeFile, findOut]
  | cons p ps ih =>
    by_cases h : p.1 = k
    · simpa [writeFile, List.filter_cons, h] using ih
    · simpa [writeFile, List.filter_cons, h, findOut] using ih

theorem findOut_writeFile_ne (outs : List (String × NDArray ℕ)) {k k' : String}
    (v : NDArray ℕ) (h : k' ≠ k) :
    findOut (writeFile outs k v) k' = findOut outs k' := by
  induction outs with
  | nil => simp [writeFile, findOut, Ne.symm h]
  | cons p ps ih =>
    by_cases hp : p.1 = k
    · have hb : (!decide (p.1 = k)) = false := by simp [hp]
      have hp' : p.1 ≠ k' := by rw [hp]; exact Ne.symm h
      simpa [writeFile, List.filter_cons, hb, findOut, hp'] using ih
    · have hb : (!decide (p.1 = k)) = true := by simp [hp]
      by_cases hp' : p.1 = k'
      · simp [writeFile, List.filter_cons, hb, findOut, hp', h]
      · simpa [writeFile, List.filter_cons, hb, findOut, hp'] using ih

theorem findOut_some_mem_keys {outs : List (String × NDArray ℕ)} {k : String} {v : NDArray ℕ}
    (h : findOut outs k = some v) : k ∈ keysOf outs := by
  induction outs with
  | nil => simp [findOut] at h
  | cons p ps ih =>
    by_cases hp : p.1 = k
    · simp [keysOf, hp]
    · simp only [findOut, if_neg hp] at h
      simp only [keysOf, List.map_cons]
      exact List.mem_cons_of_mem _ (ih h)

theorem keysOf_writeFile_nodup (outs : List (String × NDArray ℕ)) (k : String) (v : NDArray ℕ)
    (h : (keysOf outs).Nodup) : (keysOf (writeFile outs k v)).Nodup := by
  unfold keysOf writeFile
  rw [List.map_append]
  apply List.Nodup.append
  · exact ((List.filter_sublist outs).map Prod.fst).nodup h
  · simp
  · intro a ha hb
    simp only [List.map_cons, List.map_nil, List.mem_singleton] at hb
    subst hb
    rcases List.mem_map.mp ha with ⟨p, hp, hpk⟩
    rcases List.mem_filter.mp hp with ⟨-, hpne⟩
    exact absurd hpk (of_decide_eq_true hpne)

/-! ### Batch-run lemmas -/

theorem runBatch_nil (st : RunState) : runBatch [] st = .ok st := by
  simp only [runBatch]

theorem runBatch_cons (f : SrcFile) (fs : List SrcFile) (st : RunState) :
    runBatch (f :: fs) st =
      match processFile st f with
      | none => .err st
      | some st2 => runBatch fs st2 := by
  simp only [runBatch]

theorem runBatch_cons_ok {f : SrcFile} {fs : List SrcFile} {st st' : RunState}
    (h : runBatch (f :: fs) st = .ok st') :
    ∃ st2, processFile st f = some st2 ∧ runBatch fs st2 = .ok st' := by
  rw [runBatch_cons] at h
  cases hp : processFile st f with
  | none => rw [hp] at h; exact RunResult.noConfusion h
  | some st2 => rw [hp] at h; exact ⟨st2, rfl, h⟩

theorem processFile_some {st : RunState} {f : SrcFile} {st' : RunState}
    (h : processFile st f = some st') :
    (∃ px, isDcm f.name = true ∧ f.content = some px ∧
      pilWriteable (dcmNormalize px).shape = true ∧
      st' = ⟨st.count + 1, writeFile st.outputs (outName f.name) (dcmNormalize px),
        st.writes + 1⟩) ∨
    (isDcm f.name = false ∧ st' = st) := by
  unfold processFile at h
  by_cases hd : isDcm f.name = true
  · rw [if_pos hd] at h
    cases hc : f.content with
    | none => rw [hc] at h; simp at h
    | some px =>
      rw [hc] at h
      by_cases hw : pilWriteable (dcmNormalize px).shape = true
      · simp only [hw, if_true] at h
        exact Or.inl ⟨px, hd, rfl, hw, (Option.some.inj h).symm⟩
      · have hwf : pilWriteable (dcmNormalize px).shape = false := by
          revert hw; cases pilWriteable (dcmNormalize px).shape <;> simp
        simp [hwf] at h
  · rw [if_neg hd] at h
    have hd' : isDcm f.name = false := by revert hd; cases isDcm f.name <;> simp
    exact Or.inr ⟨hd', (Option.some.inj h).symm⟩

theorem runBatch_ok_findOut (fs : List SrcFile) : ∀ (st st' : RunState),
    runBatch fs st = .ok st' →
    ∀ k, findOut st'.outputs k = (lastWrite fs k).elim (findOut st.outputs k) some := by
  induction fs with
  | nil =>
    intro st st' h k
    rw [runBatch_nil] at h
    cases h
    simp [lastWrite]
  | cons f fs ih =>
    intro st st' h k
    obtain ⟨st2, hp, hrest⟩ := runBatch_cons_ok h
    have h2 := ih st2 st' hrest k
    rcases processFile_some hp with ⟨px, hd, hc, hpw, rfl⟩ | ⟨hd, rfl⟩
    · simp only [lastWrite]
      by_cases hk : outName f.name = k
      · subst hk
        have hw : writeOf f (outName f.name) = some (dcmNormalize px) := by
          simp [writeOf, hd, hc]
        rw [h2, hw]
        cases hlw : lastWrite fs (outName f.name) with
        | none => simp [findOut_writeFile_self]
        | some w => simp
      · have hw : writeOf f k = none := by simp [writeOf, hk]
        rw [h2, hw]
        have hfo : findOut (writeFile st.outputs (outName f.name) (dcmNormalize px)) k =
            findOut st.outputs k := findOut_writeFile_ne _ _ (Ne.symm hk)
        cases lastWrite fs k <;> simp [hfo]
    · have hw : writeOf f k = none := by simp [writeOf, hd]
      simp only [lastWrite]
      rw [h2, hw]
      cases lastWrite fs k <;> simp

theorem runBatch_ok_nodup (fs : List SrcFile) : ∀ (st st' : RunState),
    runBatch fs st = .ok st' → (keysOf st.outputs).Nodup → (keysOf st'.outputs).Nodup := by
  induction fs with
  | nil =>
    intro st st' h hnd
    rw [runBatch_nil] at h
    cases h
    exact hnd
  | cons f fs ih =>
    intro st st' h hnd
    obtain ⟨st2, hp, hrest⟩ := runBatch_cons_ok h
    rcases processFile_some hp with ⟨px, hd, hc, hpw, rfl⟩ | ⟨hd, rfl⟩
    · exact ih _ _ hrest (keysOf_writeFile_nodup _ _ _ hnd)
    · exact ih _ _ hrest hnd

theorem runBatch_ok_content (fs : List SrcFile) : ∀ (st st' : RunState),
    runBatch fs st = .ok st' → ∀ f ∈ fs, isDcm f.name = true → f.content ≠ none := by
  induction fs with
  | nil => intro st st' _ f hf; exact absurd hf (List.not_mem_nil f)
  | cons g gs ih =>
    intro st st' h f hf hdcm
    obtain ⟨st2, hp, hrest⟩ := runBatch_cons_ok h
    rcases List.mem_cons.mp hf with rfl | hf'
    · intro hcont
      simp [processFile, hdcm, hcont] at hp
    · exact ih _ _ hrest f hf' hdcm

theorem lastWrite_ne_none {fs : List SrcFile} {f : SrcFile} {k : String}
    (hf : f ∈ fs) (hw : writeOf f k ≠ none) : lastWrite fs k ≠ none := by
  induction fs with
  | nil => exact absurd hf (List.not_mem_nil f)
  | cons g gs ih =>
    rcases List.mem_cons.mp hf with rfl | hf'
    · simp only [lastWrite]
      cases lastWrite gs k with
      | none => simpa using hw
      | some w => simp
    · have hne := ih hf'
      simp only [lastWrite]
      cases hlw : lastWrite gs k with
      | none => exact absurd hlw hne
      | some w => simp

/-! ### C5: a decode failure aborts the whole batch -/

/-- C5 counterexample: with a failing file followed by a good one, the run
aborts in the initial state — the good file is never converted, nothing is
printed, and no skipped-file tally exists. -/
theorem decode_failure_cex :
    runProgram (.present [⟨["s1"], "bad.dcm", none⟩, ⟨["s2"], "b.dcm", some ⟨[1], [1]⟩⟩])
        "out" = .err initState ∧
      stdoutLine (.present [⟨["s1"], "bad.dcm", none⟩, ⟨["s2"], "b.dcm", some ⟨[1], [1]⟩⟩])
        "out" = none := by
  with_unfolding_all decide

/-- C5 amended: a failure to decode one source file aborts the whole batch
at that file (the exception propagates; later files are not processed and
no skipped-file count is kept). -/
theorem decode_failure_aborts (st : RunState) (f : SrcFile) (fs : List SrcFile)
    (hdcm : isDcm f.name = true) (hbad : f.content = none) :
    runBatch (f :: fs) st = .err st := by
  rw [runBatch_cons]
  have hp : processFile st f = none := by simp [processFile, hdcm, hbad]
  rw [hp]

/-- Witness for the amended C5 at a concrete failing file. -/
theorem decode_failure_aborts_witness :
    runBatch [⟨["s1"], "bad.dcm", none⟩, ⟨["s2"], "b.dcm", some ⟨[1], [1]⟩⟩] initState =
      .err initState :=
  decode_failure_aborts initState ⟨["s1"], "bad.dcm", none⟩ [⟨["s2"], "b.dcm", some ⟨[1], [1]⟩⟩]
    (by with_unfolding_all decide) rfl

/-! ### C6: a missing input root is not fatal -/

/-- C6 counterexample: with a missing input root the program completes
normally and reports zero conversions, rather than aborting. -/
theorem missing_root_cex :
    runProgram .missing "out" = .ok initState ∧
      stdoutLine .missing "out" = some "Converted 0 DICOMs to PNG in: out" := by
  with_unfolding_all decide

/-- C6 amended: a missing (or unreadable) input root does not abort the
run: `os.walk` yields nothing, the run completes normally, and the summary
reports zero conversions. -/
theorem missing_root_completes (dst : String) :
    runProgram .missing dst = .ok initState ∧
      stdoutLine .missing dst = some (summaryLine 0 dst) := by
  have h1 : runProgram .missing dst = .ok initState := by
    show runBatch (walk .missing) initState = .ok initState
    rw [show walk .missing = [] from rfl, runBatch_nil]
  refine ⟨h1, ?_⟩
  unfold stdoutLine
  rw [h1]
  rfl

/-! ### C7: base-filename collisions — last writer wins -/

/-- C7: in a successful batch containing two source files with the same
base filename (in different subdirectories), the output directory holds
exactly one file under that name afterwards, and its content is the write
of whichever file was processed last in traversal order. -/
theorem collision_last_writer (files : List SrcFile) (st : RunState)
    (f1 f2 : SrcFile) (h1 : f1 ∈ files) (h2 : f2 ∈ files)
    (hname : f1.name = f2.name) (hdir : f1.dir ≠ f2.dir)
    (hdcm : isDcm f2.name = true)
    (hrun : runBatch files initState = .ok st) :
    (keysOf st.outputs).count (outName f2.name) = 1 ∧
      findOut st.outputs (outName f2.name) = lastWrite files (outName f2.name) := by
  have hcont : f2.content ≠ none := runBatch_ok_content files _ _ hrun f2 h2 hdcm
  have hwo : writeOf f2 (outName f2.name) ≠ none := by
    unfold writeOf
    rw [if_pos ⟨hdcm, rfl⟩]
    cases hc : f2.content with
    | none => exact absurd hc hcont
    | some px => simp
  have hlw : lastWrite files (outName f2.name) ≠ none := lastWrite_ne_none h2 hwo
  have hfind := runBatch_ok_findOut files initState st hrun (outName f2.name)
  obtain ⟨w, hw⟩ := Option.ne_none_iff_exists'.mp hlw
  have hfind' : findOut st.outputs (outName f2.name) = lastWrite files (outName f2.name) := by
    rw [hfind, hw]; rfl
  refine ⟨?_, hfind'⟩
  have hnd : (keysOf st.outputs).Nodup :=
    runBatch_ok_nodup files _ _ hrun (by simp [initState, keysOf])
  have hmem : outName f2.name ∈ keysOf st.outputs :=
    findOut_some_mem_keys (v := w) (by rw [hfind', hw])
  exact List.count_eq_one_of_mem hnd hmem

/-- Witness for C7: two "x.dcm" files in different subdirectories; the
single "x.png" holds the normalization of the later one. -/
theorem collision_last_writer_witness :
    (keysOf (RunState.outputs ⟨2, [("x.png", ⟨[2], [0, 0]⟩)], 2⟩)).count (outName "x.dcm") = 1 ∧
      findOut (RunState.outputs ⟨2, [("x.png", ⟨[2], [0, 0]⟩)], 2⟩) (outName "x.dcm") =
        lastWrite [⟨["a"], "x.dcm", some ⟨[1], [5]⟩⟩, ⟨["b"], "x.dcm", some ⟨[2], [7, 7]⟩⟩]
          (outName "x.dcm") :=
  collision_last_writer
    [⟨["a"], "x.dcm", some ⟨[1], [5]⟩⟩, ⟨["b"], "x.dcm", some ⟨[2], [7, 7]⟩⟩]
    ⟨2, [("x.png", ⟨[2], [0, 0]⟩)], 2⟩
    ⟨["a"], "x.dcm", some ⟨[1], [5]⟩⟩ ⟨["b"], "x.dcm", some ⟨[2], [7, 7]⟩⟩
    (by with_unfolding_all decide) (by with_unfolding_all decide) rfl
    (by with_unfolding_all decide) (by with_unfolding_all decide)
    (by with_unfolding_all decide)

/-! ### C8: the exact summary line -/

/-- C8 counterexample: on an empty batch the program prints
"Converted 0 DICOMs to PNG in: out", not "Converted 0 files to: out". -/
theorem summary_line_cex :
    stdoutLine (.present []) "out" = some "Converted 0 DICOMs to PNG in: out" ∧
      "Converted 0 DICOMs to PNG in: out" ≠ "Converted 0 files to: out" := by
  with_unfolding_all decide

/-- C8 amended: every completed run prints
`Converted <N> DICOMs to PNG in: <output_root>` with `N` the success
count. -/
theorem summary_line_format (inp : InputRoot) (dst : String) (st : RunState)
    (h : runProgram inp dst = .ok st) :
    stdoutLine inp dst =
      some ("Converted " ++ Nat.repr st.count ++ " DICOMs to PNG in: " ++ dst) := by
  unfold stdoutLine
  rw [h]
  rfl

/-- Witness for the amended C8 on an empty input root. -/
theorem summary_line_format_witness :
    stdoutLine (.present []) "out" =
      some ("Converted " ++ Nat.repr (RunState.count initState) ++ " DICOMs to PNG in: " ++ "out") :=
  summary_line_format (.present []) "out" initState (by with_unfolding_all decide)

/-! ### C9: no first-frame selection happens -/

/-- C9 counterexample: a file decoding to a 3-D array (shape 2×1×1) is
normalized whole — the array handed to the normalizer is the 3-D array
itself, not a 2-D first frame — and the subsequent `Image.fromarray` on
the 3-D grayscale result raises `TypeError`, so the conversion aborts with
nothing written instead of producing a first-frame image. -/
theorem first_frame_cex :
    dcmNormalize (⟨[2, 1, 1], [0, 1]⟩ : NDArray ℚ) = ⟨[2, 1, 1], [0, 255]⟩ ∧
      (NDArray.shape (⟨[2, 1, 1], [0, 255]⟩ : NDArray ℕ)).length ≠ 2 ∧
      processFile initState ⟨[], "m.dcm", some ⟨[2, 1, 1], [0, 1]⟩⟩ = none := by
  with_unfolding_all decide

/-- C9 amended: no first-frame selection occurs — the decoded sample array
reaches the normalizer unchanged, whatever its dimensionality, so the
normalized array keeps the decoded array's full shape; and when
`Image.fromarray` cannot handle that shape (as for every grayscale
multi-frame `(frames, rows, cols)` array) the save raises, the file's
processing aborts, and nothing is written. -/
theorem no_first_frame_selection (st : RunState) (f : SrcFile) (px : NDArray ℚ)
    (hdcm : isDcm f.name = true) (hpx : f.content = some px) :
    (dcmNormalize px).shape = px.shape ∧
      (pilWriteable (dcmNormalize px).shape = false → processFile st f = none) := by
  refine ⟨rfl, fun hbad => ?_⟩
  simp [processFile, hdcm, hpx, hbad]

/-- Witness for the amended C9 at a concrete 3-D (two-frame) file. -/
theorem no_first_frame_selection_witness :
    (dcmNormalize (⟨[2, 1, 1], [0, 1]⟩ : NDArray ℚ)).shape = ([2, 1, 1] : List ℕ) ∧
      processFile initState ⟨[], "m.dcm", some ⟨[2, 1, 1], [0, 1]⟩⟩ = none :=
  ⟨(no_first_frame_selection initState ⟨[], "m.dcm", some ⟨[2, 1, 1], [0, 1]⟩⟩
      ⟨[2, 1, 1], [0, 1]⟩ (by with_unfolding_all decide) rfl).1,
    (no_first_frame_selection initState ⟨[], "m.dcm", some ⟨[2, 1, 1], [0, 1]⟩⟩
      ⟨[2, 1, 1], [0, 1]⟩ (by with_unfolding_all decide) rfl).2
      (by with_unfolding_all decide)⟩

/-! ### C10: the counter counts exactly the writes -/

theorem processFile_count_writes (st : RunState) (f : SrcFile) (st' : RunState)
    (h : processFile st f = some st') :
    (isDcm f.name = true ∧ st'.count = st.count + 1 ∧ st'.writes = st.writes + 1) ∨
      (isDcm f.name = false ∧ st' = st) := by
  rcases processFile_some h with ⟨px, hd, hc, hpw, rfl⟩ | ⟨hd, rfl⟩
  · exact Or.inl ⟨hd, rfl, rfl⟩
  · exact Or.inr ⟨hd, rfl⟩

theorem runBatch_preserves_cw (fs : List SrcFile) : ∀ (st st' : RunState),
    (runBatch fs st = .ok st' ∨ runBatch fs st = .err st') →
    st.count = st.writes → st'.count = st'.writes := by
  induction fs with
  | nil =>
    intro st st' h h0
    rcases h with h | h
    · rw [runBatch_nil] at h; cases h; exact h0
    · rw [runBatch_nil] at h; exact RunResult.noConfusion h
  | cons f fs ih =>
    intro st st' h h0
    cases hp : processFile st f with
    | none =>
      have hrb : runBatch (f :: fs) st = .err st := by rw [runBatch_cons, hp]
      rcases h with h | h
      · rw [hrb] at h; exact RunResult.noConfusion h
      · rw [hrb] at h; cases h; exact h0
    | some st2 =>
      have hrb : runBatch (f :: fs) st = runBatch fs st2 := by rw [runBatch_cons, hp]
      have h2 : st2.count = st2.writes := by
        rcases processFile_count_writes st f st2 hp with ⟨-, hc, hw⟩ | ⟨-, rfl⟩
        · rw [hc, hw, h0]
        · exact h0
      rcases h with h | h
      · rw [hrb] at h; exact ih st2 st' (Or.inl h) h2
      · rw [hrb] at h; exact ih st2 st' (Or.inr h) h2

/-- C10: the counter starts at 0 and tracks the writes exactly — each
processed `.dcm` file performs one write and one increment together, a
skipped file performs neither, every state reached by the loop (whether
the run completes or aborts) has counter = number of writes, and the
printed count equals the total number of writes performed. -/
theorem count_tracks_writes :
    initState.count = 0 ∧ initState.writes = 0 ∧
      (∀ (st : RunState) (f : SrcFile) (st' : RunState), processFile st f = some st' →
        (isDcm f.name = true ∧ st'.count = st.count + 1 ∧ st'.writes = st.writes + 1) ∨
          (isDcm f.name = false ∧ st' = st)) ∧
      (∀ (fs : List SrcFile) (st st' : RunState),
        (runBatch fs st = .ok st' ∨ runBatch fs st = .err st') →
        st.count = st.writes → st'.count = st'.writes) ∧
      (∀ (inp : InputRoot) (dst : String) (st : RunState), runProgram inp dst = .ok st →
        stdoutLine inp dst = some (summaryLine st.writes dst)) := by
  refine ⟨rfl, rfl, processFile_count_writes, runBatch_preserves_cw, ?_⟩
  intro inp dst st h
  have hcw : st.count = st.writes := runBatch_preserves_cw (walk inp) initState st (Or.inl h) rfl
  unfold stdoutLine
  rw [h]
  show some (summaryLine st.count dst) = some (summaryLine st.writes dst)
  rw [hcw]

/-- Witness for C10: a one-file batch performs one write, and the printed
count is the number of writes. -/
theorem count_tracks_writes_witness :
    stdoutLine (.present [⟨[], "a.dcm", some ⟨[1], [5]⟩⟩]) "out" =
      some (summaryLine (RunState.writes ⟨1, [("a.png", ⟨[1], [0]⟩)], 1⟩) "out") :=
  count_tracks_writes.2.2.2.2 (.present [⟨[], "a.dcm", some ⟨[1], [5]⟩⟩]) "out"
    ⟨1, [("a.png", ⟨[1], [0]⟩)], 1⟩ (by with_unfolding_all decide)

end DcmToPng
